import Mathlib

/-!
Verification development for the `sqlite-cache` crate (`src/lib.rs`): an embedded,
persistent, time-expiring key-value cache over SQLite.

Modelling conventions (shallow embedding, translated from the source):
* `u64` values are `Nat`; the explicit clamps by `i64::MAX` in the source
  (`.min(i64::MAX as u64)` after `saturating_add`) appear as `min _ i64Max`.
  On `Nat`, `saturating_add` followed by that clamp is exactly `min (a + b) i64Max`.
* A topic table (one SQLite table `topic_<base32 name>`) is a map
  `String → Option Row`; `replace into` is a point update, `delete ... where k = ?`
  removes the point, `update ... set expiry = ? where k = ?` updates the point when
  present and does nothing otherwise, `delete ... where expiry < ?` filters.
* The in-memory `lazy_expiry_update : HashMap<(Arc<str>, String), u64>` is an
  association list with insert-overwrite semantics (`alistInsert` / `alistRemove`).
* `sqlite_master`'s set of topic tables is the `tableNames` list carried in the state.
* Wall-clock time (`SystemTime::now() ... as_secs()`) is passed in as a `Nat` argument.
* Storage (rusqlite) errors are injected through explicit `fault` oracles; a faulting
  statement leaves the store unchanged and makes the operation return `some ()`
  (the error), mirroring `?` propagation in the source.
* The per-key lock protocol of `get_for_update` / `KeyUpdater` is modelled twice:
  once as the sequential body executed by the winner of the acquisition
  (`Topic.get_for_update_acquired`), and once as a labelled transition system
  (`Step` on `LockSys`) covering the waiting/wakeup loop of the source, where a
  task id performs the registry operations the source performs under the
  `listeners` mutex (each such critical section is one atomic transition).
-/

/-- Constant `i64::MAX` as a natural number; the clamp bound used by `Topic::set` and
`Topic::get` when computing ttls and absolute expiries. -/
def i64Max : Nat := 2 ^ 63 - 1

/-- One row of a topic table: columns `v`, `created_at`, `expiry`, `ttl`
(`k` is the map key). Bytes are `List Nat`. -/
structure Row where
  v : List Nat
  created_at : Nat
  expiry : Nat
  ttl : Nat
deriving DecidableEq, Repr

/-- The `Value` struct returned by `Topic::get`: the blob and its `created_at`. -/
structure Value where
  data : List Nat
  created_at : Nat
deriving DecidableEq, Repr

/-- A topic table: partial map from key to row. -/
abbrev Table := String → Option Row

/-- Pointwise function update (used for tables keyed by name and rows keyed by `k`). -/
def fupd {α β : Type} [DecidableEq α] (f : α → β) (a : α) (b : β) : α → β :=
  fun x => if x = a then b else f x

/-- Remove every binding of `k` from an association list
(`HashMap::remove`, ignoring the returned value). -/
def alistRemove {α β : Type} [DecidableEq α] (k : α) (l : List (α × β)) : List (α × β) :=
  l.filter (fun p => decide (p.1 ≠ k))

/-- Insert-with-overwrite into an association list (`HashMap::insert`). -/
def alistInsert {α β : Type} [DecidableEq α] (k : α) (v : β) (l : List (α × β)) :
    List (α × β) :=
  (k, v) :: alistRemove k l

/-- Lookup in an association list (`HashMap::get`). -/
def alistGet {α β : Type} [DecidableEq α] (k : α) (l : List (α × β)) : Option β :=
  (l.find? (fun p => decide (p.1 = k))).map Prod.snd

/-- The shared state owned by `CacheImpl`: the SQLite database (all topic tables plus
the `sqlite_master` list of their names) and the deferred expiry-update batch. -/
structure CacheState where
  tables : String → Table
  tableNames : List String
  lazy_expiry_update : List ((String × String) × Nat)

/-- The ttl clamping performed by `Topic::set`: `ttl = ttl.min(max_ttl)` when a
`max_ttl` is configured, then `ttl = ttl.min(i64::MAX as u64)`. -/
def clampTtl (maxTtl : Option Nat) (ttl : Nat) : Nat :=
  let t := match maxTtl with
    | some m => min ttl m
    | none => ttl
  min t i64Max

/-- Computation `now.saturating_add(ttl).min(i64::MAX as u64)` on `Nat`
(no `u64` overflow can occur before the clamp takes effect). -/
def expiryOf (now ttl : Nat) : Nat := min (now + ttl) i64Max

/-- Model of `Topic::get` (src/lib.rs:156-187): `select v, created_at, ttl where k = ?`;
when found, record a deferred expiry update `now + ttl` (clamped to `i64::MAX`) for
`(table_name, key)` — overwriting any pending one — and return the value and its
`created_at`; when absent return `none`. The tables are never written. -/
def Topic.get (tn key : String) (now : Nat) (st : CacheState) :
    Option Value × CacheState :=
  match st.tables tn key with
  | some r =>
      (some { data := r.v, created_at := r.created_at },
       { st with lazy_expiry_update :=
           alistInsert (tn, key) (expiryOf now r.ttl) st.lazy_expiry_update })
  | none => (none, st)

/-- Model of `Topic::set` (src/lib.rs:224-251): clamp the ttl, compute the absolute expiry,
`replace into (k, v, expiry, ttl)` — SQLite `REPLACE` deletes any existing row and
inserts a fresh one, so `created_at` takes its column default, the current time —
then remove any pending deferred expiry update for `(table_name, key)`. -/
def Topic.set (maxTtl : Option Nat) (tn key : String) (value : List Nat)
    (ttl now : Nat) (st : CacheState) : CacheState :=
  let t := clampTtl maxTtl ttl
  { st with
    tables := fupd st.tables tn
      (fupd (st.tables tn) key
        (some { v := value, created_at := now, expiry := expiryOf now t, ttl := t })),
    lazy_expiry_update := alistRemove (tn, key) st.lazy_expiry_update }

/-- Model of `Topic::delete` (src/lib.rs:253-261): `delete from {t} where k = ?`.
Only the row (if any) is touched; the deferred batch is not consulted. -/
def Topic.delete (tn key : String) (st : CacheState) : CacheState :=
  { st with tables := fupd st.tables tn (fupd (st.tables tn) key none) }

/-- Statement `update {tn} set expiry = ? where k = ?`: one entry of the flush loop. -/
def applyExpiryUpdate (tn key : String) (e : Nat) (ts : String → Table) :
    String → Table :=
  fupd ts tn (fun k => if k = key then (ts tn k).map (fun r => { r with expiry := e })
    else ts tn k)

/-- Model of `Cache::flush` (src/lib.rs:82-93): atomically drain the deferred batch
(`mem::take`) and apply each pending `(table, key) → expiry` as an SQL `update`.
A per-entry storage failure is logged and the entry dropped; an `update` whose
`where k = ?` matches no row simply affects zero rows, which is what the pointwise
model computes. -/
def Cache.flush (st : CacheState) : CacheState :=
  { st with
    tables := st.lazy_expiry_update.foldl
      (fun ts e => applyExpiryUpdate e.1.1 e.1.2 e.2 ts) st.tables,
    lazy_expiry_update := [] }

/-- Statement `delete from {t} where expiry < now`: the per-table GC sweep. -/
def tableSweep (now : Nat) (t : Table) : Table :=
  fun k =>
    match t k with
    | some r => if r.expiry < now then none else some r
    | none => none

/-- The per-table loop of `Cache::gc` (src/lib.rs:110-116): sweep each enumerated
table in order; the first faulting `delete` statement aborts the pass via `?`,
leaving the remaining tables unswept (earlier sweeps stay applied — each `delete`
is its own statement, not inside a transaction). -/
def gcTables (now : Nat) (fault : String → Bool) :
    List String → (String → Table) → Option Unit × (String → Table)
  | [], ts => (none, ts)
  | tn :: rest, ts =>
      if fault tn then (some (), ts)
      else gcTables now fault rest (fupd ts tn (tableSweep now (ts tn)))

/-- Model of `Cache::gc` (src/lib.rs:95-121): enumerate the topic tables from
`sqlite_master` and delete every row whose `expiry` is before the current time. -/
def Cache.gc (now : Nat) (fault : String → Bool) (st : CacheState) :
    Option Unit × CacheState :=
  let r := gcTables now fault st.tableNames st.tables
  (r.1, { st with tables := r.2 })

/-- The per-`Topic`-handle lock registry together with the cache state: the
`listeners: Mutex<HashMap<String, Vec<Sender<()>>>>` field, with waiter senders
abstracted to their task ids. -/
structure TopicState where
  cache : CacheState
  listeners : List (String × List Nat)

/-- The acquisition path of `Topic::get_for_update` (src/lib.rs:189-222) taken when
no lock entry exists for `key`: insert an empty waiter vector (the key is now
locked), leave the loop, and run `Topic::get` — note the source calls `self.get(key)`
at line 214, so the full body of `get`, including its deferred-expiry registration,
executes here. -/
def Topic.get_for_update_acquired (tn key : String) (now : Nat) (s : TopicState) :
    Option Value × TopicState :=
  let ls := alistInsert key ([] : List Nat) s.listeners
  let r := Topic.get tn key now s.cache
  (r.1, { cache := r.2, listeners := ls })

/-- Model of `KeyUpdater::drop` (src/lib.rs:269-274): `listeners.remove(key).unwrap()`.
Removing the entry frees the key; dropping the removed `Vec<Sender<()>>` fires every
oneshot, waking all current waiters. -/
def KeyUpdater.drop (key : String) (s : TopicState) : TopicState :=
  { s with listeners := alistRemove key s.listeners }

/-- Model of `Topic::set` with a storage-fault flag for the `stmt.execute` call: on fault the
error propagates through `?` before the row is written and before the pending batch
entry is removed, so the state is unchanged. -/
def Topic.setF (fault : Bool) (maxTtl : Option Nat) (tn key : String)
    (value : List Nat) (ttl now : Nat) (st : CacheState) : Option Unit × CacheState :=
  if fault then (some (), st) else (none, Topic.set maxTtl tn key value ttl now st)

/-- Model of `KeyUpdater::write` (src/lib.rs:276-281): run `set` on the held key, propagate
its result, and — because `write` consumes `self` — run `drop` (the release)
unconditionally when the scope ends, error or not. -/
def KeyUpdater.write (fault : Bool) (maxTtl : Option Nat) (tn key : String)
    (value : List Nat) (ttl now : Nat) (s : TopicState) : Option Unit × TopicState :=
  let r := Topic.setF fault maxTtl tn key value ttl now s.cache
  (r.1, KeyUpdater.drop key { s with cache := r.2 })

/-- State of the maintenance loop `periodic_task` (src/lib.rs:283-313):
the `gc_ratio_counter` and the shared cache state it maintains. -/
structure MaintState where
  gc_ratio_counter : Nat
  cache : CacheState

/-- One timeout iteration of `periodic_task`: flush, bump the counter, and when it
reaches `flush_gc_ratio`, reset it and run a GC pass. A GC error is caught with
`if let Err(e) = cache.gc()` and only logged: it reaches no caller and the loop
continues; partial sweeps performed before the failing statement remain applied.
The returned `Bool` records whether this cycle attempted GC. -/
def loopCycle (ratio now : Nat) (fault : String → Bool) (s : MaintState) :
    MaintState × Bool :=
  let c := Cache.flush s.cache
  let k := s.gc_ratio_counter + 1
  if k = ratio then
    ({ gc_ratio_counter := 0, cache := (Cache.gc now fault c).2 }, true)
  else
    ({ gc_ratio_counter := k, cache := c }, false)

/-- Iterate `n` timeout cycles of the `periodic_task` loop (no shutdown signal). -/
def periodic_task (ratio now : Nat) (fault : String → Bool) :
    Nat → MaintState → MaintState
  | 0, s => s
  | n + 1, s => periodic_task ratio now fault n (loopCycle ratio now fault s).1

/-- Whether the `n`-th (0-indexed) flush cycle of the loop attempts a GC pass. -/
def gcAttemptAt (ratio now : Nat) (fault : String → Bool) (s0 : MaintState)
    (n : Nat) : Bool :=
  (loopCycle ratio now fault (periodic_task ratio now fault n s0)).2

/-- Status of one task interacting with the per-key lock of one `Topic` handle
(a single key suffices: distinct keys have independent registry entries). -/
inductive TaskSt where
  | idle
  | trying
  | waiting (woken : Bool)
  | holding
  | done
deriving DecidableEq, Repr

/-- The lock protocol state for one key of one `Topic` handle: each task's status
and the registry slot (`listeners.get(key)`): `none` means free, `some l` means
locked with waiter ids `l` (the `Vec<Sender<()>>`). -/
structure LockSys where
  tasks : Nat → TaskSt
  registry : Option (List Nat)

/-- Effect of a fired oneshot on one task: a suspended waiter becomes woken;
tasks in any other status are unaffected. -/
def wakeTask : TaskSt → TaskSt
  | TaskSt.waiting _ => TaskSt.waiting true
  | t => t

/-- Effect of dropping the removed waiter vector on release: every listed waiter's
oneshot fires. -/
def wakeAll (l : List Nat) (f : Nat → TaskSt) : Nat → TaskSt :=
  fun j => if j ∈ l then wakeTask (f j) else f j

/-- The result of a successful uncontended acquisition by task `i`:
`listeners.insert(key, vec![])` plus the task proceeding to hold the lock. -/
def acquireResult (i : Nat) (s : LockSys) : LockSys :=
  { tasks := fupd s.tasks i TaskSt.holding, registry := some [] }

/-- Transitions of the `get_for_update` / `KeyUpdater` protocol, each one critical
section under the `listeners` mutex in the source (src/lib.rs:193-212, 269-274):
`start` enters the loop; `acqFree` finds no entry, inserts `vec![]` and proceeds;
`acqBusy` finds an entry, pushes its oneshot sender and suspends on the receiver;
`release` is `KeyUpdater::drop` (reached by `write` or by discarding the lock):
remove the entry and wake every collected waiter; `retry` is a woken waiter looping
back to re-attempt acquisition. -/
inductive Step : Nat → LockSys → LockSys → Prop where
  | start (i : Nat) (s : LockSys) (h : s.tasks i = TaskSt.idle) :
      Step i s { tasks := fupd s.tasks i TaskSt.trying, registry := s.registry }
  | acqFree (i : Nat) (s : LockSys) (h : s.tasks i = TaskSt.trying)
      (hr : s.registry = none) :
      Step i s (acquireResult i s)
  | acqBusy (i : Nat) (s : LockSys) (l : List Nat) (h : s.tasks i = TaskSt.trying)
      (hr : s.registry = some l) :
      Step i s { tasks := fupd s.tasks i (TaskSt.waiting false),
                 registry := some (l ++ [i]) }
  | release (i : Nat) (s : LockSys) (l : List Nat) (h : s.tasks i = TaskSt.holding)
      (hr : s.registry = some l) :
      Step i s { tasks := fupd (wakeAll l s.tasks) i TaskSt.done, registry := none }
  | retry (i : Nat) (s : LockSys) (h : s.tasks i = TaskSt.waiting true) :
      Step i s { tasks := fupd s.tasks i TaskSt.trying, registry := s.registry }

/-- Initial protocol state: no caller has entered `get_for_update`, the registry has
no entry for the key (a fresh `HashMap`). -/
def lockInit : LockSys := { tasks := fun _ => TaskSt.idle, registry := none }

/-- States reachable by any interleaving of protocol transitions. -/
inductive Reachable : LockSys → Prop where
  | init : Reachable lockInit
  | step (s s' : LockSys) (i : Nat) (hs : Reachable s) (hstep : Step i s s') :
      Reachable s'

/-- The RFC 4648 base32 alphabet used by `data_encoding::BASE32_NOPAD`. -/
def b32Alphabet : List Char :=
  ['A', 'B', 'C', 'D', 'E', 'F', 'G', 'H', 'I', 'J', 'K', 'L', 'M', 'N', 'O', 'P',
   'Q', 'R', 'S', 'T', 'U', 'V', 'W', 'X', 'Y', 'Z', '2', '3', '4', '5', '6', '7']

/-- The symbol for a 5-bit group value. -/
def b32Char (n : Nat) : Char := b32Alphabet.getD n 'A'

/-- Index of a symbol in the alphabet (the decoding table). -/
def b32Val (c : Char) : Nat := b32Alphabet.findIdx (fun x => decide (x = c))

/-- Value of a most-significant-bit-first bit string. -/
def bitsVal (l : List Bool) : Nat :=
  l.foldl (fun a b => 2 * a + (if b then 1 else 0)) 0

/-- The eight bits of a byte, most significant first. -/
def byteBits (n : Nat) : List Bool :=
  [n.testBit 7, n.testBit 6, n.testBit 5, n.testBit 4,
   n.testBit 3, n.testBit 2, n.testBit 1, n.testBit 0]

/-- The five bits of a 5-bit group value, most significant first. -/
def bits5 (n : Nat) : List Bool :=
  [n.testBit 4, n.testBit 3, n.testBit 2, n.testBit 1, n.testBit 0]

/-- Map successive 5-bit groups of a bit string to alphabet symbols. -/
def encodeBits : List Bool → List Char
  | a :: b :: c :: d :: e :: rest => b32Char (bitsVal [a, b, c, d, e]) :: encodeBits rest
  | _ => []

/-- Zero-pad a bit string at the end to a multiple of five bits
(what `BASE32_NOPAD` does before grouping; no `=` padding characters). -/
def padBits (l : List Bool) : List Bool :=
  l ++ List.replicate ((5 - l.length % 5) % 5) false

/-- Model of `BASE32_NOPAD.encode` on a byte string. -/
def b32Encode (bytes : List Nat) : List Char :=
  encodeBits (padBits ((bytes.map byteBits).flatten))

/-- The table identifier derived by `Cache::topic` (src/lib.rs:124):
`format!("topic_{}", BASE32_NOPAD.encode(key.as_bytes()))`, as a function of the
UTF-8 bytes of the topic name (UTF-8 encoding itself is injective). -/
def table_name (bytes : List Nat) : String :=
  String.mk (['t', 'o', 'p', 'i', 'c', '_'] ++ b32Encode bytes)

/-- Decoding: expand each symbol back to its five bits. -/
def decodeBits : List Char → List Bool
  | c :: rest => bits5 (b32Val c) ++ decodeBits rest
  | [] => []

/-- Regroup a bit string into bytes, eight bits at a time. -/
def bytesOfBits : List Bool → List Nat
  | b7 :: b6 :: b5 :: b4 :: b3 :: b2 :: b1 :: b0 :: rest =>
      bitsVal [b7, b6, b5, b4, b3, b2, b1, b0] :: bytesOfBits rest
  | _ => []

/-- Model of `BASE32_NOPAD.decode`: expand the symbols to bits, drop the trailing partial
byte of padding bits, regroup into bytes. -/
def b32Decode (chars : List Char) : List Nat :=
  let bits := decodeBits chars
  bytesOfBits (bits.take (8 * (bits.length / 8)))

theorem fupd_same {α β : Type} [DecidableEq α] (f : α → β) (a : α) (b : β) :
    fupd f a b a = b := by
  simp [fupd]

theorem fupd_other {α β : Type} [DecidableEq α] (f : α → β) (a x : α) (b : β)
    (h : x ≠ a) : fupd f a b x = f x := by
  simp [fupd, h]

theorem alistGet_cons_eq {α β : Type} [DecidableEq α] (k' : α) (x : α × β)
    (xs : List (α × β)) (h : x.1 = k') : alistGet k' (x :: xs) = some x.2 := by
  unfold alistGet
  rw [List.find?_cons_of_pos _ (by simp [h])]
  rfl

theorem alistGet_cons_ne {α β : Type} [DecidableEq α] (k' : α) (x : α × β)
    (xs : List (α × β)) (h : ¬ x.1 = k') : alistGet k' (x :: xs) = alistGet k' xs := by
  unfold alistGet
  rw [List.find?_cons_of_neg _ (by simp [h])]

theorem alistRemove_cons_eq {α β : Type} [DecidableEq α] (k : α) (x : α × β)
    (xs : List (α × β)) (h : x.1 = k) : alistRemove k (x :: xs) = alistRemove k xs := by
  unfold alistRemove
  rw [List.filter_cons_of_neg (by simp [h])]

theorem alistRemove_cons_ne {α β : Type} [DecidableEq α] (k : α) (x : α × β)
    (xs : List (α × β)) (h : ¬ x.1 = k) :
    alistRemove k (x :: xs) = x :: alistRemove k xs := by
  unfold alistRemove
  rw [List.filter_cons_of_pos (by simp [h])]

theorem alistGet_remove_self {α β : Type} [DecidableEq α] (k : α) (l : List (α × β)) :
    alistGet k (alistRemove k l) = none := by
  induction l with
  | nil => rfl
  | cons x xs ih =>
      by_cases h : x.1 = k
      · rw [alistRemove_cons_eq _ _ _ h]
        exact ih
      · rw [alistRemove_cons_ne _ _ _ h,
          alistGet_cons_ne _ _ _ (fun hc => h (by rw [hc]))]
        exact ih

theorem alistGet_remove_other {α β : Type} [DecidableEq α] (k k' : α)
    (l : List (α × β)) (h : k' ≠ k) :
    alistGet k' (alistRemove k l) = alistGet k' l := by
  induction l with
  | nil => rfl
  | cons x xs ih =>
      by_cases hx : x.1 = k
      · rw [alistRemove_cons_eq _ _ _ hx, ih,
          alistGet_cons_ne _ _ _ (fun hc => h (by rw [← hc, hx]))]
      · by_cases hk : x.1 = k'
        · rw [alistRemove_cons_ne _ _ _ hx, alistGet_cons_eq _ _ _ hk,
            alistGet_cons_eq _ _ _ hk]
        · rw [alistRemove_cons_ne _ _ _ hx, alistGet_cons_ne _ _ _ hk,
            alistGet_cons_ne _ _ _ hk, ih]

theorem alistGet_insert_self {α β : Type} [DecidableEq α] (k : α) (v : β)
    (l : List (α × β)) : alistGet k (alistInsert k v l) = some v := by
  rw [alistInsert, alistGet_cons_eq k (k, v) (alistRemove k l) rfl]

theorem alistGet_insert_other {α β : Type} [DecidableEq α] (k k' : α) (v : β)
    (l : List (α × β)) (h : k' ≠ k) :
    alistGet k' (alistInsert k v l) = alistGet k' l := by
  rw [alistInsert, alistGet_cons_ne _ _ _ (fun hc => h hc.symm),
    alistGet_remove_other _ _ _ h]

/-- A concrete row used by the closed witnesses below. -/
def demoRow : Row := { v := [1], created_at := 3, expiry := 105, ttl := 5 }

/-- A concrete cache state: one topic table `t` holding key `a`, empty batch. -/
def demoCache : CacheState :=
  { tables := fupd (fun _ => (fun _ => none)) "t" (fupd (fun _ => none) "a" (some demoRow)),
    tableNames := ["t"],
    lazy_expiry_update := [] }

/-- C1: a successful `Topic::set(key, value, ttl)` replaces the entire row for `key`:
afterwards the stored ttl is `min(requested ttl, configured max_ttl)` clamped to the
representable range, the stored expiry is `write_time + clamped ttl` (saturating,
capped at `i64::MAX`), `created_at` is re-defaulted to the current time, and the
deferred expiry-update batch holds no pending entry for `(topic, key)`. -/
theorem set_replaces_row_and_clears_pending (maxTtl : Option Nat) (tn key : String)
    (value : List Nat) (ttl now : Nat) (st : CacheState) :
    (Topic.set maxTtl tn key value ttl now st).tables tn key =
      some { v := value, created_at := now,
             expiry := min (now + clampTtl maxTtl ttl) i64Max,
             ttl := clampTtl maxTtl ttl } ∧
    (∀ m, maxTtl = some m → clampTtl maxTtl ttl = min (min ttl m) i64Max) ∧
    (maxTtl = none → clampTtl maxTtl ttl = min ttl i64Max) ∧
    alistGet (tn, key) (Topic.set maxTtl tn key value ttl now st).lazy_expiry_update =
      none := by
  refine ⟨?_, ?_, ?_, ?_⟩
  · simp [Topic.set, fupd_same, expiryOf]
  · intro m hm
    simp [clampTtl, hm]
  · intro hm
    simp [clampTtl, hm]
  · simp [Topic.set, alistGet_remove_self]

/-- Witness for C1 at concrete inputs, firing the `max_ttl = some _` clamp case. -/
theorem set_replaces_row_and_clears_pending_witness :
    clampTtl (some 3) 7 = min (min 7 3) i64Max ∧
    alistGet ("t", "a")
      (Topic.set (some 3) "t" "a" [9] 7 100 demoCache).lazy_expiry_update = none := by
  have h := set_replaces_row_and_clears_pending (some 3) "t" "a" [9] 7 100 demoCache
  exact ⟨h.2.1 3 rfl, h.2.2.2⟩

/-- C2: `Topic::get(key)` on a present key returns the stored value and its
`created_at`, records a deferred expiry update of `now + ttl` (clamped to the
representable range) for `(topic, key)` — overwriting any prior pending value for
that key, leaving every other pending entry alone — and performs no synchronous
write to storage (tables and table list unchanged); on an absent key it returns
`none` (the not-found result, not an error) and changes nothing at all. -/
theorem get_reads_and_defers_refresh (tn key : String) (now : Nat) (st : CacheState) :
    (∀ r, st.tables tn key = some r →
      (Topic.get tn key now st).1 = some { data := r.v, created_at := r.created_at } ∧
      (Topic.get tn key now st).2.tables = st.tables ∧
      (Topic.get tn key now st).2.tableNames = st.tableNames ∧
      alistGet (tn, key) (Topic.get tn key now st).2.lazy_expiry_update =
        some (min (now + r.ttl) i64Max) ∧
      (∀ p, p ≠ (tn, key) →
        alistGet p (Topic.get tn key now st).2.lazy_expiry_update =
          alistGet p st.lazy_expiry_update)) ∧
    (st.tables tn key = none → Topic.get tn key now st = (none, st)) := by
  constructor
  · intro r hr
    refine ⟨?_, ?_, ?_, ?_, ?_⟩
    · simp [Topic.get, hr]
    · simp [Topic.get, hr]
    · simp [Topic.get, hr]
    · simp [Topic.get, hr, expiryOf, alistGet_insert_self]
    · intro p hp
      simp only [Topic.get, hr]
      exact alistGet_insert_other _ _ _ _ hp
  · intro h
    simp [Topic.get, h]

/-- Witness for C2 at a concrete state with the key present. -/
theorem get_reads_and_defers_refresh_witness :
    (Topic.get "t" "a" 100 demoCache).1 = some { data := [1], created_at := 3 } ∧
    alistGet ("t", "a") (Topic.get "t" "a" 100 demoCache).2.lazy_expiry_update =
      some (min (100 + 5) i64Max) ∧
    (Topic.get "t" "a" 100 demoCache).2.tables = demoCache.tables := by
  have h := (get_reads_and_defers_refresh "t" "a" 100 demoCache).1 demoRow rfl
  exact ⟨h.1, h.2.2.2.1, h.2.1⟩

/-- A concrete topic-handle state with a free lock registry. -/
def demoTS : TopicState := { cache := demoCache, listeners := [] }

/-- C3 counterexample: at a concrete state with key `a` present and an empty
deferred batch, the winning `get_for_update` path does change the batch — the
source calls `self.get(key)` (src/lib.rs:214), whose body registers the
expiry-refresh deferred update — contradicting the claim that the deferred batch
is unchanged by this read. -/
theorem get_for_update_batch_counterexample :
    alistGet "a" demoTS.listeners = none ∧
    (Topic.get_for_update_acquired "t" "a" 100 demoTS).2.cache.lazy_expiry_update ≠
      demoTS.cache.lazy_expiry_update := by
  exact ⟨rfl, by decide⟩

/-- C3 amended: when `get_for_update` acquires the lock (no lock entry existed), it
returns the Key Update Lock together with the current value obtained by the same
lookup logic as `get`, including `get`'s registration of an expiry-refresh deferred
update when the key is present; the registry gains the (locked, zero-waiter) entry
for the key and other keys' entries are untouched. -/
theorem get_for_update_acquires_and_reads (tn key : String) (now : Nat)
    (s : TopicState) (_hfree : alistGet key s.listeners = none) :
    (Topic.get_for_update_acquired tn key now s).1 =
      (Topic.get tn key now s.cache).1 ∧
    (Topic.get_for_update_acquired tn key now s).2.cache =
      (Topic.get tn key now s.cache).2 ∧
    alistGet key (Topic.get_for_update_acquired tn key now s).2.listeners =
      some ([] : List Nat) ∧
    (∀ k, k ≠ key →
      alistGet k (Topic.get_for_update_acquired tn key now s).2.listeners =
        alistGet k s.listeners) := by
  refine ⟨rfl, rfl, ?_, ?_⟩
  · simp [Topic.get_for_update_acquired, alistGet_insert_self]
  · intro k hk
    simp only [Topic.get_for_update_acquired]
    exact alistGet_insert_other _ _ _ _ hk

/-- Witness for the amended C3 at a concrete free-lock state. -/
theorem get_for_update_acquires_and_reads_witness :
    alistGet "a" (Topic.get_for_update_acquired "t" "a" 100 demoTS).2.listeners =
      some ([] : List Nat) ∧
    (Topic.get_for_update_acquired "t" "a" 100 demoTS).1 =
      (Topic.get "t" "a" 100 demoTS.cache).1 := by
  have h := get_for_update_acquires_and_reads "t" "a" 100 demoTS rfl
  exact ⟨h.2.2.1, h.1⟩

/-- C5: after a successful `set(k, v, ttl)` at time `now`, `get(k)` at any time
before the (max_ttl-clamped) ttl has elapsed returns `v` (with `created_at = now`);
after a successful `delete(k)`, `get(k)` returns the empty result; and deleting an
absent key succeeds, leaving the table pointwise unchanged. -/
theorem set_get_delete_roundtrip (maxTtl : Option Nat) (tn key : String)
    (v : List Nat) (ttl now now2 : Nat) (st : CacheState)
    (_hwin : now2 < now + clampTtl maxTtl ttl) :
    (Topic.get tn key now2 (Topic.set maxTtl tn key v ttl now st)).1 =
      some { data := v, created_at := now } ∧
    (Topic.get tn key now2 (Topic.delete tn key st)).1 = none ∧
    (st.tables tn key = none →
      ∀ k, (Topic.delete tn key st).tables tn k = st.tables tn k) := by
  refine ⟨?_, ?_, ?_⟩
  · simp [Topic.get, Topic.set, fupd_same]
  · simp [Topic.get, Topic.delete, fupd_same]
  · intro h k
    by_cases hk : k = key
    · subst hk
      simp [Topic.delete, fupd_same, fupd, h]
    · simp [Topic.delete, fupd_same, fupd, hk]

/-- Witness for C5 at concrete inputs inside the ttl window. -/
theorem set_get_delete_roundtrip_witness :
    (Topic.get "t" "a" 102 (Topic.set none "t" "a" [9] 5 100 demoCache)).1 =
      some { data := [9], created_at := 100 } ∧
    (Topic.get "t" "a" 102 (Topic.delete "t" "a" demoCache)).1 = none := by
  have h := set_get_delete_roundtrip none "t" "a" [9] 5 100 102 demoCache (by decide)
  exact ⟨h.1, h.2.1⟩

/-- Helper for C6 and C4: any step taken by the holder of the lock wakes every
waiter recorded in the registry entry (the only step a holder can take is
`release`, which fires all collected senders). -/
theorem release_wakes_waiters (ls : LockSys) (i j : Nat) (l : List Nat)
    (hold : ls.tasks i = TaskSt.holding) (hreg : ls.registry = some l) (hj : j ∈ l)
    (hw : ls.tasks j = TaskSt.waiting false) :
    ∀ s', Step i ls s' → s'.tasks j = TaskSt.waiting true := by
  intro s' hs
  have hji : j ≠ i := by
    intro hc
    rw [hc, hold] at hw
    cases hw
  cases hs with
  | start h => rw [hold] at h; cases h
  | acqFree h hr => rw [hold] at h; cases h
  | acqBusy l' h hr => rw [hold] at h; cases h
  | retry h => rw [hold] at h; cases h
  | release l' h hr =>
      rw [hreg] at hr
      cases hr
      show fupd (wakeAll l ls.tasks) i TaskSt.done j = TaskSt.waiting true
      rw [fupd_other _ _ _ _ hji]
      simp [wakeAll, wakeTask, hj, hw]

/-- A concrete topic-handle state whose lock registry holds key `a` with no
waiters (the state right after an uncontended `get_for_update`). -/
def demoHeldTS : TopicState := { cache := demoCache, listeners := [("a", [])] }

/-- C6: `KeyUpdater::write(value, ttl)` consumes the lock, performs `set` with that
value and ttl, then releases: the registry entry for the key is removed and —
since dropping the removed senders fires them — every current waiter is woken
(final conjunct, over the protocol model). If `set` fails with a storage error,
that same error is returned, nothing is persisted, and the lock is still released. -/
theorem write_sets_then_releases (fault : Bool) (maxTtl : Option Nat)
    (tn key : String) (value : List Nat) (ttl now : Nat) (s : TopicState) :
    (KeyUpdater.write fault maxTtl tn key value ttl now s).1 =
      (Topic.setF fault maxTtl tn key value ttl now s.cache).1 ∧
    (fault = false →
      (KeyUpdater.write fault maxTtl tn key value ttl now s).2.cache =
        Topic.set maxTtl tn key value ttl now s.cache) ∧
    (fault = true →
      (KeyUpdater.write fault maxTtl tn key value ttl now s).1 = some () ∧
      (KeyUpdater.write fault maxTtl tn key value ttl now s).2.cache = s.cache) ∧
    alistGet key (KeyUpdater.write fault maxTtl tn key value ttl now s).2.listeners =
      none ∧
    (∀ (ls : LockSys) (i j : Nat) (l : List Nat),
      ls.tasks i = TaskSt.holding → ls.registry = some l → j ∈ l →
      ls.tasks j = TaskSt.waiting false →
      ∀ s', Step i ls s' → s'.tasks j = TaskSt.waiting true) := by
  refine ⟨rfl, ?_, ?_, ?_, ?_⟩
  · intro h
    subst h
    rfl
  · intro h
    subst h
    exact ⟨rfl, rfl⟩
  · simp [KeyUpdater.write, KeyUpdater.drop, alistGet_remove_self]
  · exact fun ls i j l h1 h2 h3 h4 => release_wakes_waiters ls i j l h1 h2 h3 h4

/-- Witness for C6: a faulting `set` returns the error yet still releases. -/
theorem write_sets_then_releases_witness :
    (KeyUpdater.write true none "t" "a" [9] 5 100 demoHeldTS).1 = some () ∧
    (KeyUpdater.write true none "t" "a" [9] 5 100 demoHeldTS).2.cache =
      demoHeldTS.cache ∧
    alistGet "a"
      (KeyUpdater.write true none "t" "a" [9] 5 100 demoHeldTS).2.listeners =
      none := by
  have h := write_sets_then_releases true none "t" "a" [9] 5 100 demoHeldTS
  exact ⟨(h.2.2.1 rfl).1, (h.2.2.1 rfl).2, h.2.2.2.1⟩

/-- Helper for C9: folding the flush updates over any batch never creates a row —
an `update ... where k = ?` against a nonexistent row affects zero rows. -/
theorem flushFold_preserves_absent (tn key : String)
    (l : List ((String × String) × Nat)) :
    ∀ ts : String → Table, ts tn key = none →
      (l.foldl (fun ts e => applyExpiryUpdate e.1.1 e.1.2 e.2 ts) ts) tn key =
        none := by
  induction l with
  | nil => exact fun ts h => h
  | cons e rest ih =>
      intro ts h
      apply ih
      by_cases ht : tn = e.1.1
      · subst ht
        by_cases hk : key = e.1.2
        · subst hk
          simp [applyExpiryUpdate, fupd_same, h]
        · simp [applyExpiryUpdate, fupd_same, hk, h]
      · simp [applyExpiryUpdate, fupd_other _ _ _ _ ht, h]

/-- C9: `Topic::delete(key)` leaves the deferred expiry-update batch unchanged, so
a pending refresh recorded for `(topic, key)` by an earlier `get` survives the
delete; the next `Cache::flush` then drains the whole batch, and applying the
surviving entry against the now-nonexistent row is a no-op that recreates
nothing. -/
theorem delete_preserves_pending_refresh (tn key : String) (st : CacheState) :
    (Topic.delete tn key st).lazy_expiry_update = st.lazy_expiry_update ∧
    (∀ e, alistGet (tn, key) st.lazy_expiry_update = some e →
      alistGet (tn, key) (Topic.delete tn key st).lazy_expiry_update = some e) ∧
    (Cache.flush st).lazy_expiry_update = [] ∧
    (st.tables tn key = none → (Cache.flush st).tables tn key = none) := by
  refine ⟨rfl, fun e he => he, rfl, ?_⟩
  intro h
  exact flushFold_preserves_absent tn key _ _ h

/-- A concrete state with a pending deferred refresh for `("t", "a")`. -/
def demoPending : CacheState :=
  { demoCache with lazy_expiry_update := [(("t", "a"), 105)] }

/-- Witness for C9: the pending entry survives the delete, and flushing it against
the deleted row leaves the row absent. -/
theorem delete_preserves_pending_refresh_witness :
    alistGet ("t", "a") (Topic.delete "t" "a" demoPending).lazy_expiry_update =
      some 105 ∧
    (Cache.flush (Topic.delete "t" "a" demoPending)).tables "t" "a" = none := by
  have h := delete_preserves_pending_refresh "t" "a" demoPending
  have h2 := delete_preserves_pending_refresh "t" "a" (Topic.delete "t" "a" demoPending)
  exact ⟨h.2.1 105 rfl, h2.2.2.2 (by decide)⟩

theorem fupd_holding {f : Nat → TaskSt} {i j : Nat} {t : TaskSt}
    (ht : t ≠ TaskSt.holding) (h : fupd f i t j = TaskSt.holding) :
    f j = TaskSt.holding ∧ j ≠ i := by
  by_cases hji : j = i
  · rw [hji, fupd_same] at h
    exact absurd h ht
  · rw [fupd_other _ _ _ _ hji] at h
    exact ⟨h, hji⟩

theorem wakeAll_holding (l : List Nat) (f : Nat → TaskSt) (j : Nat)
    (h : wakeAll l f j = TaskSt.holding) : f j = TaskSt.holding := by
  unfold wakeAll at h
  by_cases hj : j ∈ l
  · simp only [hj, if_true] at h
    cases hf : f j <;> rw [hf] at h <;> simp_all [wakeTask]
  · simpa [hj] using h

/-- The protocol invariant: a holder implies the registry entry exists, and at most
one task holds the lock at a time. -/
def LockInv (s : LockSys) : Prop :=
  (∀ i, s.tasks i = TaskSt.holding → s.registry.isSome = true) ∧
  (∀ i j, s.tasks i = TaskSt.holding → s.tasks j = TaskSt.holding → i = j)

theorem lockInv_step (s s' : LockSys) (i : Nat) (inv : LockInv s) (hs : Step i s s') :
    LockInv s' := by
  obtain ⟨h1, h2⟩ := inv
  cases hs with
  | start h =>
      refine ⟨?_, ?_⟩
      · intro j hj
        obtain ⟨hj', -⟩ := fupd_holding (by decide) hj
        exact h1 j hj'
      · intro a b ha hb
        obtain ⟨ha', -⟩ := fupd_holding (by decide) ha
        obtain ⟨hb', -⟩ := fupd_holding (by decide) hb
        exact h2 a b ha' hb'
  | acqFree h hr =>
      refine ⟨fun j _ => rfl, ?_⟩
      have hnone : ∀ k, s.tasks k ≠ TaskSt.holding := by
        intro k hk
        have hsome := h1 k hk
        rw [hr] at hsome
        simp at hsome
      have key : ∀ a, fupd s.tasks i TaskSt.holding a = TaskSt.holding → a = i := by
        intro a ha
        by_cases hai : a = i
        · exact hai
        · rw [fupd_other _ _ _ _ hai] at ha
          exact absurd ha (hnone a)
      intro a b ha hb
      rw [key a ha, key b hb]
  | acqBusy l h hr =>
      refine ⟨fun j _ => rfl, ?_⟩
      intro a b ha hb
      obtain ⟨ha', -⟩ := fupd_holding (by decide) ha
      obtain ⟨hb', -⟩ := fupd_holding (by decide) hb
      exact h2 a b ha' hb'
  | release l h hr =>
      have hnone : ∀ j, fupd (wakeAll l s.tasks) i TaskSt.done j ≠ TaskSt.holding := by
        intro j hj
        obtain ⟨hj', hji⟩ := fupd_holding (by decide) hj
        exact hji (h2 j i (wakeAll_holding l s.tasks j hj') h)
      exact ⟨fun j hj => absurd hj (hnone j), fun a b ha _ => absurd ha (hnone a)⟩
  | retry h =>
      refine ⟨?_, ?_⟩
      · intro j hj
        obtain ⟨hj', -⟩ := fupd_holding (by decide) hj
        exact h1 j hj'
      · intro a b ha hb
        obtain ⟨ha', -⟩ := fupd_holding (by decide) ha
        obtain ⟨hb', -⟩ := fupd_holding (by decide) hb
        exact h2 a b ha' hb'

theorem lockInv_reachable (s : LockSys) (h : Reachable s) : LockInv s := by
  induction h with
  | init =>
      refine ⟨?_, ?_⟩
      · intro i hi
        simp [lockInit] at hi
      · intro a b ha _
        simp [lockInit] at ha
  | step s s' i _ hstep ih => exact lockInv_step s s' i ih hstep

/-- Protocol state after task 0 has entered `get_for_update`. -/
def lockTrying : LockSys :=
  { tasks := fupd lockInit.tasks 0 TaskSt.trying, registry := lockInit.registry }

/-- Protocol state after tasks 0 and 1 have both entered `get_for_update`. -/
def lockTrying2 : LockSys :=
  { tasks := fupd lockTrying.tasks 1 TaskSt.trying, registry := lockTrying.registry }

/-- Protocol state after task 0 has acquired the lock uncontended. -/
def lockHeld : LockSys := acquireResult 0 lockTrying

theorem reachable_lockTrying : Reachable lockTrying :=
  Reachable.step lockInit lockTrying 0 Reachable.init (Step.start 0 lockInit rfl)

theorem reachable_lockTrying2 : Reachable lockTrying2 :=
  Reachable.step lockTrying lockTrying2 1 reachable_lockTrying
    (Step.start 1 lockTrying rfl)

theorem reachable_lockHeld : Reachable lockHeld :=
  Reachable.step lockTrying lockHeld 0 reachable_lockTrying
    (Step.acqFree 0 lockTrying rfl rfl)

/-- C4: for concurrent callers of `get_for_update` on the same key of the same
Topic handle, in every reachable protocol state: (1) at most one task holds the
lock at any instant; (2) a suspended, not-yet-woken waiter can take no step of its
own — it stays suspended until the holder's release wakes it; (3) the holder's
release (by `write` or by discarding the lock) wakes every collected waiter; (4)
when the registry is free and two woken-and-retrying tasks race, the one that
re-checks first acquires, and the other's attempt suspends it again — exactly one
of the waiters proceeds. -/
theorem get_for_update_mutual_exclusion (s : LockSys) (hs : Reachable s)
    (i j : Nat) :
    (s.tasks i = TaskSt.holding → s.tasks j = TaskSt.holding → i = j) ∧
    (s.tasks i = TaskSt.waiting false → ∀ s', ¬ Step i s s') ∧
    (∀ l, s.tasks i = TaskSt.holding → s.registry = some l → j ∈ l →
      s.tasks j = TaskSt.waiting false →
      ∀ s', Step i s s' → s'.tasks j = TaskSt.waiting true) ∧
    (s.registry = none → i ≠ j → s.tasks i = TaskSt.trying →
      s.tasks j = TaskSt.trying →
      Step i s (acquireResult i s) ∧
      (acquireResult i s).tasks i = TaskSt.holding ∧
      (∀ w, Step j (acquireResult i s) w → w.tasks j = TaskSt.waiting false)) := by
  refine ⟨fun hi hj => (lockInv_reachable s hs).2 i j hi hj, ?_, ?_, ?_⟩
  · intro hw s' hstep
    cases hstep with
    | start h => rw [hw] at h; cases h
    | acqFree h hr => rw [hw] at h; cases h
    | acqBusy l h hr => rw [hw] at h; cases h
    | release l h hr => rw [hw] at h; cases h
    | retry h => rw [hw] at h; cases h
  · exact fun l hi hr hjl hw => release_wakes_waiters s i j l hi hr hjl hw
  · intro hr hij hi hj
    refine ⟨Step.acqFree i s hi hr, fupd_same _ _ _, ?_⟩
    have haj : (acquireResult i s).tasks j = TaskSt.trying := by
      show fupd s.tasks i TaskSt.holding j = TaskSt.trying
      rw [fupd_other _ _ _ _ (fun hc => hij hc.symm)]
      exact hj
    intro w hw
    cases hw with
    | start h => rw [haj] at h; cases h
    | acqFree h hreg => cases hreg
    | acqBusy l h hreg => exact fupd_same _ _ _
    | release l h hreg => rw [haj] at h; cases h
    | retry h => rw [haj] at h; cases h

/-- Witness for C4: in the reachable two-contender state, task 0's acquisition step
exists and leaves task 0 holding the lock. -/
theorem get_for_update_mutual_exclusion_witness :
    Step 0 lockTrying2 (acquireResult 0 lockTrying2) ∧
    (acquireResult 0 lockTrying2).tasks 0 = TaskSt.holding := by
  have h := (get_for_update_mutual_exclusion lockTrying2 reachable_lockTrying2 0 1).2.2.2
    rfl (by decide) rfl rfl
  exact ⟨h.1, h.2.1⟩

/-- C10: whenever a `KeyUpdater` exists for a key on a Topic handle (a task holds
the lock), that handle's registry contains an entry for the key — so the
`listeners.remove(key).unwrap()` in `KeyUpdater::drop` always finds an entry and
never panics, in every reachable state of the protocol; no other operation removes
the entry (only `acqFree` inserts and `release` removes it, and the `get`/`set`/
`delete` models never touch `listeners`). -/
theorem updater_implies_registry_entry (s : LockSys) (hs : Reachable s) (i : Nat)
    (h : s.tasks i = TaskSt.holding) : s.registry.isSome = true :=
  (lockInv_reachable s hs).1 i h

/-- Witness for C10 at the reachable held state. -/
theorem updater_implies_registry_entry_witness : lockHeld.registry.isSome = true :=
  updater_implies_registry_entry lockHeld reachable_lockHeld 0 rfl

theorem mod_succ_eq (n r : Nat) (hr : 0 < r) :
    (n + 1) % r = if n % r + 1 = r then 0 else n % r + 1 := by
  have hdm := Nat.div_add_mod n r
  have hlt : n % r < r := Nat.mod_lt _ hr
  by_cases hc : n % r + 1 = r
  · have he : n + 1 = r * (n / r + 1) := by
      rw [Nat.mul_add, Nat.mul_one]
      omega
    rw [if_pos hc, he, Nat.mul_mod_right]
  · have he : n + 1 = r * (n / r) + (n % r + 1) := by omega
    rw [if_neg hc, he, Nat.mul_add_mod]
    exact Nat.mod_eq_of_lt (by omega)

theorem loopCycle_attempt (ratio now : Nat) (fault : String → Bool) (s : MaintState) :
    (loopCycle ratio now fault s).2 = true ↔ s.gc_ratio_counter + 1 = ratio := by
  by_cases hc : s.gc_ratio_counter + 1 = ratio <;> simp [loopCycle, hc]

theorem periodic_task_counter (ratio now : Nat) (fault : String → Bool)
    (hr : 0 < ratio) :
    ∀ (n : Nat) (s : MaintState), s.gc_ratio_counter < ratio →
      (periodic_task ratio now fault n s).gc_ratio_counter =
        (s.gc_ratio_counter + n) % ratio := by
  intro n
  induction n with
  | zero => exact fun s h => (Nat.mod_eq_of_lt h).symm
  | succ m ih =>
      intro s h
      show (periodic_task ratio now fault m
        (loopCycle ratio now fault s).1).gc_ratio_counter = _
      by_cases hc : s.gc_ratio_counter + 1 = ratio
      · have hcy : (loopCycle ratio now fault s).1.gc_ratio_counter = 0 := by
          simp [loopCycle, hc]
        rw [ih _ (by rw [hcy]; exact hr), hcy]
        have he : s.gc_ratio_counter + (m + 1) = ratio + m := by omega
        rw [he, Nat.add_mod_left, Nat.zero_add]
      · have hcy : (loopCycle ratio now fault s).1.gc_ratio_counter =
            s.gc_ratio_counter + 1 := by
          simp [loopCycle, hc]
        rw [ih _ (by rw [hcy]; omega), hcy]
        congr 1
        omega

theorem gcTables_cons_ok (now : Nat) (fault : String → Bool) (hd : String)
    (rest : List String) (ts : String → Table) (h : fault hd = false) :
    gcTables now fault (hd :: rest) ts =
      gcTables now fault rest (fupd ts hd (tableSweep now (ts hd))) := by
  simp [gcTables, h]

theorem gcTables_cons_fault (now : Nat) (fault : String → Bool) (hd : String)
    (rest : List String) (ts : String → Table) (h : fault hd = true) :
    gcTables now fault (hd :: rest) ts = (some (), ts) := by
  simp [gcTables, h]

theorem gcTables_ok (now : Nat) :
    ∀ (names : List String) (ts : String → Table), names.Nodup →
      (gcTables now (fun _ => false) names ts).1 = none ∧
      (∀ tn ∈ names, ∀ k,
        (gcTables now (fun _ => false) names ts).2 tn k =
          tableSweep now (ts tn) k) ∧
      (∀ tn, tn ∉ names → (gcTables now (fun _ => false) names ts).2 tn = ts tn) := by
  intro names
  induction names with
  | nil =>
      exact fun ts _ =>
        ⟨rfl, fun tn h => absurd h (List.not_mem_nil tn), fun tn _ => rfl⟩
  | cons hd rest ih =>
      intro ts hnd
      obtain ⟨hhd, hrest⟩ := List.nodup_cons.mp hnd
      have ihh := ih (fupd ts hd (tableSweep now (ts hd))) hrest
      rw [gcTables_cons_ok now _ hd rest ts rfl]
      refine ⟨ihh.1, ?_, ?_⟩
      · intro tn htn k
        rcases List.mem_cons.mp htn with he | hm
        · subst he
          rw [ihh.2.2 tn hhd, fupd_same]
        · have hne : tn ≠ hd := fun hc => hhd (hc ▸ hm)
          rw [ihh.2.1 tn hm k, fupd_other _ _ _ _ hne]
      · intro tn htn
        have h1 : tn ∉ rest := fun hc => htn (List.mem_cons_of_mem hd hc)
        have h2 : tn ≠ hd := fun hc => htn (hc ▸ List.mem_cons_self hd rest)
        rw [ihh.2.2 tn h1, fupd_other _ _ _ _ h2]

theorem gcTables_fault_aborts (now : Nat) (fault : String → Bool) :
    ∀ (names : List String) (ts : String → Table),
      (∃ tn ∈ names, fault tn = true) →
      (gcTables now fault names ts).1 = some () := by
  intro names
  induction names with
  | nil =>
      rintro ts ⟨tn, h, -⟩
      exact absurd h (List.not_mem_nil tn)
  | cons hd rest ih =>
      rintro ts ⟨tn, htn, hf⟩
      by_cases hh : fault hd = true
      · rw [gcTables_cons_fault now fault hd rest ts hh]
      · have hh' : fault hd = false := by
          cases hfd : fault hd
          · rfl
          · exact absurd hfd hh
        rw [gcTables_cons_ok now fault hd rest ts hh']
        apply ih
        rcases List.mem_cons.mp htn with he | hm
        · subst he
          exact absurd hf hh
        · exact ⟨tn, hm, hf⟩

theorem tableSweep_mem (now : Nat) (t : Table) (k : String) (r : Row) :
    tableSweep now t k = some r ↔ t k = some r ∧ ¬ r.expiry < now := by
  unfold tableSweep
  cases ht : t k with
  | none => simp
  | some r' =>
      by_cases he : r'.expiry < now
      · simp only [he, if_pos, if_true]
        constructor
        · intro h
          cases h
        · rintro ⟨hrr, hn⟩
          cases hrr
          exact absurd he hn
      · simp only [he, if_neg, if_false]
        constructor
        · intro h
          cases h
          exact ⟨rfl, he⟩
        · rintro ⟨hrr, -⟩
          exact hrr

/-- C7: the maintenance loop attempts GC exactly on every `flush_gc_ratio`-th flush
cycle — the schedule holds for every fault oracle, because the loop catches a GC
error (`if let Err(e) = cache.gc()`), logs it, and keeps running, so a failure
reaches no caller and the next scheduled cycle retries (second conjunct); a GC pass
enumerates all topic tables and deletes exactly the rows whose `expiry` is before
the current time (third and fourth conjuncts); a faulting statement makes the pass
abort with the error (fifth conjunct). -/
theorem maintenance_gc_schedule_and_sweep (ratio now : Nat) (fault : String → Bool)
    (s0 : MaintState) (n : Nat) (hr : 0 < ratio) (h0 : s0.gc_ratio_counter = 0) :
    (gcAttemptAt ratio now fault s0 n = true ↔ (n + 1) % ratio = 0) ∧
    ((n + 1) % ratio = 0 → gcAttemptAt ratio now fault s0 (n + ratio) = true) ∧
    (∀ st : CacheState, st.tableNames.Nodup →
      (Cache.gc now (fun _ => false) st).1 = none ∧
      (∀ tn ∈ st.tableNames, ∀ k,
        (Cache.gc now (fun _ => false) st).2.tables tn k =
          tableSweep now (st.tables tn) k)) ∧
    (∀ (t : Table) (k : String) (r : Row),
      tableSweep now t k = some r ↔ t k = some r ∧ ¬ r.expiry < now) ∧
    (∀ st : CacheState, (∃ tn ∈ st.tableNames, fault tn = true) →
      (Cache.gc now fault st).1 = some ()) := by
  have hsched : ∀ m : Nat,
      gcAttemptAt ratio now fault s0 m = true ↔ (m + 1) % ratio = 0 := by
    intro m
    have hcnt := periodic_task_counter ratio now fault hr m s0 (by rw [h0]; exact hr)
    rw [h0, Nat.zero_add] at hcnt
    rw [gcAttemptAt, loopCycle_attempt, hcnt, mod_succ_eq m ratio hr]
    by_cases hc : m % ratio + 1 = ratio
    · simp [hc]
    · rw [if_neg hc]
      constructor
      · intro h
        exact absurd h hc
      · intro h
        omega
  refine ⟨hsched n, ?_, ?_, fun t k r => tableSweep_mem now t k r, ?_⟩
  · intro h
    rw [hsched (n + ratio)]
    have he : n + ratio + 1 = (n + 1) + ratio := by omega
    rw [he, Nat.add_mod_right]
    exact h
  · intro st hnd
    have h := gcTables_ok now st.tableNames st.tables hnd
    exact ⟨h.1, fun tn htn k => h.2.1 tn htn k⟩
  · intro st hex
    exact gcTables_fault_aborts now fault st.tableNames st.tables hex

/-- A concrete maintenance-loop state with the counter at zero. -/
def demoMaint : MaintState := { gc_ratio_counter := 0, cache := demoCache }

/-- Witness for C7: with `flush_gc_ratio = 2` the second flush cycle attempts GC,
and a fault-free pass over the demo cache reports no error. -/
theorem maintenance_gc_schedule_and_sweep_witness :
    gcAttemptAt 2 200 (fun _ => false) demoMaint 1 = true ∧
    (Cache.gc 200 (fun _ => false) demoCache).1 = none := by
  have h := maintenance_gc_schedule_and_sweep 2 200 (fun _ => false) demoMaint 1
    (by decide) rfl
  exact ⟨h.1.mpr rfl, (h.2.2.1 demoCache (by decide)).1⟩

theorem bits5_bitsVal (a b c d e : Bool) :
    bits5 (bitsVal [a, b, c, d, e]) = [a, b, c, d, e] := by
  cases a <;> cases b <;> cases c <;> cases d <;> cases e <;> decide

theorem bitsVal5_lt (a b c d e : Bool) : bitsVal [a, b, c, d, e] < 32 := by
  cases a <;> cases b <;> cases c <;> cases d <;> cases e <;> decide

theorem b32Val_b32Char_lt : ∀ n < 32, b32Val (b32Char n) = n := by decide

set_option maxRecDepth 4000 in
theorem bitsVal_testBits : ∀ n < 256,
    bitsVal [n.testBit 7, n.testBit 6, n.testBit 5, n.testBit 4,
             n.testBit 3, n.testBit 2, n.testBit 1, n.testBit 0] = n := by decide

theorem b32Char_mem_lt : ∀ n < 32, b32Char n ∈ b32Alphabet := by decide

theorem b32Char_mem (n : Nat) : b32Char n ∈ b32Alphabet := by
  by_cases h : n < 32
  · exact b32Char_mem_lt n h
  · have hlen : b32Alphabet.length ≤ n := by
      have : b32Alphabet.length = 32 := by decide
      omega
    rw [b32Char, List.getD_eq_default _ _ hlen]
    decide

theorem decodeBits_encodeBits : ∀ (n : Nat) (l : List Bool), l.length = 5 * n →
    decodeBits (encodeBits l) = l := by
  intro n
  induction n with
  | zero =>
      intro l h
      have hl : l = [] := List.eq_nil_of_length_eq_zero (by omega)
      subst hl
      rfl
  | succ m ih =>
      intro l h
      rcases l with - | ⟨a, l⟩
      · simp at h
      rcases l with - | ⟨b, l⟩
      · simp at h
        omega
      rcases l with - | ⟨c, l⟩
      · simp at h
        omega
      rcases l with - | ⟨d, l⟩
      · simp at h
        omega
      rcases l with - | ⟨e, rest⟩
      · simp at h
        omega
      have hrest : rest.length = 5 * m := by
        simp at h
        omega
      have henc : encodeBits (a :: b :: c :: d :: e :: rest) =
          b32Char (bitsVal [a, b, c, d, e]) :: encodeBits rest := rfl
      have hdec : decodeBits (b32Char (bitsVal [a, b, c, d, e]) :: encodeBits rest) =
          bits5 (b32Val (b32Char (bitsVal [a, b, c, d, e]))) ++
            decodeBits (encodeBits rest) := rfl
      rw [henc, hdec, b32Val_b32Char_lt _ (bitsVal5_lt a b c d e), bits5_bitsVal,
        ih rest hrest]
      rfl

theorem bytesBits_length (bytes : List Nat) :
    ((bytes.map byteBits).flatten).length = 8 * bytes.length := by
  induction bytes with
  | nil => rfl
  | cons b rest ih =>
      simp only [List.map_cons, List.flatten_cons, List.length_append, ih, byteBits,
        List.length_cons, List.length_nil]
      omega

theorem bytesOfBits_flatten : ∀ bytes : List Nat, (∀ x ∈ bytes, x < 256) →
    bytesOfBits ((bytes.map byteBits).flatten) = bytes := by
  intro bytes
  induction bytes with
  | nil => exact fun _ => rfl
  | cons b rest ih =>
      intro hb
      have hb256 : b < 256 := hb b (List.mem_cons_self _ _)
      simp only [List.map_cons, List.flatten_cons, byteBits, List.cons_append,
        List.nil_append, bytesOfBits]
      rw [bitsVal_testBits b hb256]
      show b :: bytesOfBits ((rest.map byteBits).flatten) = b :: rest
      rw [ih (fun x hx => hb x (List.mem_cons_of_mem _ hx))]

theorem b32Decode_b32Encode (bytes : List Nat) (hb : ∀ x ∈ bytes, x < 256) :
    b32Decode (b32Encode bytes) = bytes := by
  have hlen : ((bytes.map byteBits).flatten).length = 8 * bytes.length :=
    bytesBits_length bytes
  have hpadlen : (padBits ((bytes.map byteBits).flatten)).length =
      ((bytes.map byteBits).flatten).length +
        (5 - ((bytes.map byteBits).flatten).length % 5) % 5 := by
    simp [padBits]
  have hdec : decodeBits (encodeBits (padBits ((bytes.map byteBits).flatten))) =
      padBits ((bytes.map byteBits).flatten) := by
    apply decodeBits_encodeBits ((padBits ((bytes.map byteBits).flatten)).length / 5)
    rw [hpadlen]
    omega
  simp only [b32Decode, b32Encode]
  rw [hdec]
  have hq : 8 * ((padBits ((bytes.map byteBits).flatten)).length / 8) =
      ((bytes.map byteBits).flatten).length := by
    rw [hpadlen, hlen]
    omega
  rw [hq, padBits, List.take_left]
  exact bytesOfBits_flatten bytes hb

theorem encodeBits_mem : ∀ (fuel : Nat) (l : List Bool), l.length ≤ fuel →
    ∀ ch ∈ encodeBits l, ch ∈ b32Alphabet := by
  intro fuel
  induction fuel with
  | zero =>
      intro l h ch hc
      have hl : l = [] := List.eq_nil_of_length_eq_zero (by omega)
      subst hl
      cases hc
  | succ m ih =>
      intro l h ch hc
      rcases l with - | ⟨a, l⟩
      · cases hc
      rcases l with - | ⟨b, l⟩
      · have he : encodeBits [a] = [] := rfl
        rw [he] at hc
        cases hc
      rcases l with - | ⟨c, l⟩
      · have he : encodeBits [a, b] = [] := rfl
        rw [he] at hc
        cases hc
      rcases l with - | ⟨d, l⟩
      · have he : encodeBits [a, b, c] = [] := rfl
        rw [he] at hc
        cases hc
      rcases l with - | ⟨e, rest⟩
      · have he : encodeBits [a, b, c, d] = [] := rfl
        rw [he] at hc
        cases hc
      have he : encodeBits (a :: b :: c :: d :: e :: rest) =
          b32Char (bitsVal [a, b, c, d, e]) :: encodeBits rest := rfl
      rw [he] at hc
      rcases List.mem_cons.mp hc with hch | hch
      · rw [hch]
        exact b32Char_mem _
      · have hlr : rest.length ≤ m := by
          simp at h
          omega
        exact ih rest hlr ch hch

theorem b32Alphabet_identifier_safe : ∀ ch ∈ b32Alphabet, ch.isAlphanum = true := by
  decide

/-- C8: the table-identifier derivation of `Cache::topic` —
`format!("topic_{}", BASE32_NOPAD.encode(name))` — is injective and
identifier-safe: equal table names force equal topic-name byte strings (so
distinct names never collide), the encoding is reversible (`b32Decode` inverts
`b32Encode`), and every derived name begins with the letter `t` and consists only
of ASCII alphanumerics and `_` — a syntactically valid SQLite identifier. -/
theorem topic_table_name_injective (b1 b2 : List Nat) (h1 : ∀ x ∈ b1, x < 256)
    (h2 : ∀ x ∈ b2, x < 256) :
    (table_name b1 = table_name b2 → b1 = b2) ∧
    b32Decode (b32Encode b1) = b1 ∧
    (∀ ch ∈ (table_name b1).data, ch.isAlphanum = true ∨ ch = '_') ∧
    (table_name b1).data.head? = some 't' := by
  refine ⟨?_, b32Decode_b32Encode b1 h1, ?_, rfl⟩
  · intro he
    have hd : (table_name b1).data = (table_name b2).data := congrArg String.data he
    have hl : ['t', 'o', 'p', 'i', 'c', '_'] ++ b32Encode b1 =
        ['t', 'o', 'p', 'i', 'c', '_'] ++ b32Encode b2 := hd
    have henc : b32Encode b1 = b32Encode b2 := List.append_cancel_left hl
    have hdd := congrArg b32Decode henc
    rw [b32Decode_b32Encode b1 h1, b32Decode_b32Encode b2 h2] at hdd
    exact hdd
  · intro ch hc
    have hc' : ch ∈ (['t', 'o', 'p', 'i', 'c', '_'] : List Char) ∨
        ch ∈ b32Encode b1 := List.mem_append.mp hc
    rcases hc' with h | h
    · fin_cases h <;> simp
    · exact Or.inl (b32Alphabet_identifier_safe ch
        (encodeBits_mem (padBits ((b1.map byteBits).flatten)).length _ le_rfl ch h))

/-- Witness for C8: the round trip and identifier shape at a concrete name. -/
theorem topic_table_name_injective_witness :
    b32Decode (b32Encode [0]) = [0] ∧
    (table_name [0]).data.head? = some 't' := by
  have h := topic_table_name_injective [0] [255] (by decide) (by decide)
  exact ⟨h.2.1, h.2.2.2⟩
